import Mathlib

/-!
Verification of the `collections-go` library (package `collections`).

The Go source is shallowly embedded:
* Go slices become Lean `List`s; `make([]T, n)` allocates a list of `n`
  zero values, modelled by `List.replicate n default` with `[Inhabited T]`
  standing for Go's zero value of `T`.
* Go slicing `s[:k]` becomes `List.take k`; indexed writes become `List.set`.
* Go `int` comparisons that may involve negative values (`len(x)-1`) are
  carried out in `Int`.
* A Go `map[T]struct{}` is modelled by its key list in insertion order
  (`Collections.Set`); the uniqueness of map keys is the `List.Nodup`
  invariant carried by the theorems.
* The doubly linked list behind `Queue` and `Stack` is mutable heap data,
  so it is embedded as an explicit heap: a list of node records addressed
  by index, with `Option Nat` playing the role of possibly-nil pointers.
  Traversals that Go writes as `for curr != nil` loops are fuel-bounded by
  the number of allocated nodes, which coincides with the Go behaviour on
  every acyclic heap (the only heaps the API constructs).
-/

namespace Collections

/-! ### Slice algorithms (slice.go) -/

/-- Embedding of `SliceFilter`'s loop: walks `sl`, writing each element
satisfying `pred` into the next slot of the preallocated result, and
returns the result buffer together with the final `resultIdx`. -/
def sliceFilterLoop {T : Type} (pred : T → Bool) :
    List T → List T → Nat → List T × Nat
  | [], res, idx => (res, idx)
  | x :: rest, res, idx =>
    if pred x then sliceFilterLoop pred rest (res.set idx x) (idx + 1)
    else sliceFilterLoop pred rest res idx

/-- Embedding of `SliceFilter` (slice.go): allocates `make([]T, len(sl))`
(zero-filled), copies the matching elements to the front, and then trims
with `result = result[:resultIdx]` only when `resultIdx < len(result)-1`,
exactly as the source does. -/
def SliceFilter {T : Type} [Inhabited T] (sl : List T) (pred : T → Bool) :
    List T :=
  let start : List T := List.replicate sl.length default
  let p := sliceFilterLoop pred sl start 0
  if (p.2 : Int) < (p.1.length : Int) - 1 then p.1.take p.2 else p.1

/-- Embedding of the unexported helper `subset` (slice.go): scans `sl`,
comparing `sl[i]` with `sub[subIdx]`; a match advances `subIdx` (returning
`true` once the end of `sub` is reached), a mismatch resets `subIdx` to 0.
The Go code indexes `sub[subIdx]` unconditionally; an out-of-range access
is a Go runtime panic, modelled by `none`. -/
def subsetAux {T : Type} [DecidableEq T] (sub : List T) :
    List T → Nat → Option Bool
  | [], _ => some false
  | x :: rest, subIdx =>
    match sub.get? subIdx with
    | none => none
    | some y =>
      if x = y then
        if subIdx == sub.length - 1 then some true
        else subsetAux sub rest (subIdx + 1)
      else subsetAux sub rest 0

/-- Embedding of `SliceSubset` (slice.go): returns `false` immediately when
`len(sub) > len(sl)`, otherwise runs the `subset` scan.  `none` models a
runtime panic inside the scan. -/
def SliceSubset {T : Type} [DecidableEq T] (sl sub : List T) : Option Bool :=
  if sub.length > sl.length then some false else subsetAux sub sl 0

/-- Embedding of `SliceSubsetStrict` (slice.go): returns `false` when
`len(sub) > len(sl)-1` (computed in Go `int` arithmetic, hence over `Int`),
otherwise runs the `subset` scan. -/
def SliceSubsetStrict {T : Type} [DecidableEq T] (sl sub : List T) :
    Option Bool :=
  if (sub.length : Int) > (sl.length : Int) - 1 then some false
  else subsetAux sub sl 0

/-! ### Sets (set.go) -/

/-- A Go `map[T]struct{}` modelled by its list of keys (insertion order).
Map-key uniqueness corresponds to the `List.Nodup` invariant. -/
abbrev Set (T : Type) : Type := List T

/-- Membership of the key list, i.e. `_, ok := s[el]`. -/
def Set.Contains {T : Type} [DecidableEq T] (s : Set T) (el : T) : Bool :=
  decide (el ∈ (s : List T))

/-- Embedding of `Set.Add`: `s[el] = struct{}{}` inserts the key when it is
absent and leaves the map unchanged when it is already present. -/
def Set.Add {T : Type} [DecidableEq T] (s : Set T) (el : T) : Set T :=
  if el ∈ (s : List T) then s else (s : List T) ++ [el]

/-- The cardinality `len(s)` of the map. -/
def Set.card {T : Type} (s : Set T) : Nat := (s : List T).length

/-- Set membership as a proposition (an element is a key of the map). -/
def Set.Mem {T : Type} (s : Set T) (el : T) : Prop := el ∈ (s : List T)

/-- Embedding of `Set.Equals` (set.go): `len(s) != len(s2)` fails first,
then every key of `s` is looked up in `s2`. -/
def Set.Equals {T : Type} [DecidableEq T] (s s2 : Set T) : Bool :=
  if s.card ≠ s2.card then false
  else (s : List T).all fun el => s2.Contains el

/-- Embedding of `NewSet` (set.go): starts from the empty map and `Add`s
each variadic argument in order. -/
def NewSet {T : Type} [DecidableEq T] (elements : List T) : Set T :=
  elements.foldl (fun set el => set.Add el) ([] : List T)

/-- Embedding of `NewSetFromSlice` (set.go): starts from the empty map and
`Add`s each slice element in order (the same loop as `NewSet`). -/
def NewSetFromSlice {T : Type} [DecidableEq T] (sl : List T) : Set T :=
  sl.foldl (fun set el => set.Add el) ([] : List T)

/-- Embedding of the loop of `NewSetSaveDuplicates`: the accumulator holds
the set so far, the `dupes` buffer (`none` while still the nil slice,
allocated as `len(slice)-1` zero values at the first duplicate) and
`dupesIdx`.  `n` is `len(slice)`, fixed before the loop runs. -/
def nssdLoop {T : Type} [DecidableEq T] [Inhabited T] (n : Nat) :
    List T → Set T → Option (List T) → Nat → Set T × Option (List T) × Nat
  | [], set, dupes, idx => (set, dupes, idx)
  | el :: rest, set, dupes, idx =>
    if set.Contains el then
      let d := match dupes with
        | none => List.replicate (n - 1) (default : T)
        | some d => d
      nssdLoop n rest set (some (d.set idx el)) (idx + 1)
    else nssdLoop n rest ((set : List T) ++ [el]) dupes idx

/-- Embedding of `NewSetSaveDuplicates` (set.go): runs the loop and then
trims `dupes = dupes[:dupesIdx]` only when `dupes != nil && dupesIdx <
len(dupes)-1`, exactly as the source does. -/
def NewSetSaveDuplicates {T : Type} [DecidableEq T] [Inhabited T]
    (slice : List T) : Set T × Option (List T) :=
  let r := nssdLoop slice.length slice ([] : List T) none 0
  match r.2.1 with
  | none => (r.1, none)
  | some d =>
    if (r.2.2 : Int) < (d.length : Int) - 1 then (r.1, some (d.take r.2.2))
    else (r.1, some d)

/-! ### Doubly linked list, Queue and Stack (queue.go)

The `LLNode` graph is mutable, possibly cyclic heap data (`Prev` points
back), so it is embedded with an explicit heap: nodes live in an
allocation list addressed by index, and a Go `*LLNode` pointer becomes an
`Option Nat` (with `none` for `nil`).  The Go code never frees a node
(`RemoveSelf` only rewires pointers), so allocation appends.  Go's
`for curr != nil` walks are fuel-bounded by the number of allocated nodes,
which agrees with Go on every acyclic heap — and the reachable queue and
stack states, captured by the well-formedness invariants below, are
acyclic. -/

/-- One heap node of `LLNode[T]`: a value and the `Prev`/`Next` pointers. -/
structure LLNode (T : Type) where
  value : T
  prev : Option Nat
  next : Option Nat
deriving DecidableEq, Repr

/-- The heap of allocated `LLNode`s, addressed by list index. -/
structure LLHeap (T : Type) where
  nodes : List (LLNode T)
deriving DecidableEq, Repr

/-- Number of allocated nodes. -/
def LLHeap.size {T : Type} (h : LLHeap T) : Nat := h.nodes.length

/-- Dereference a node id (a non-nil pointer). -/
def LLHeap.lookup {T : Type} (h : LLHeap T) (id : Nat) : Option (LLNode T) :=
  h.nodes[id]?

/-- Overwrite the node stored at `id` (a Go field assignment). -/
def LLHeap.setNode {T : Type} (h : LLHeap T) (id : Nat) (nd : LLNode T) :
    LLHeap T :=
  ⟨h.nodes.set id nd⟩

/-- Allocate a fresh node (`&LLNode[T]{...}`), returning its id. -/
def LLHeap.alloc {T : Type} (h : LLHeap T) (nd : LLNode T) :
    Nat × LLHeap T :=
  (h.nodes.length, ⟨h.nodes ++ [nd]⟩)

/-- The `for curr != nil` walk of `LLNode.Len`, fuel-bounded. -/
def lenAux {T : Type} (h : LLHeap T) : Nat → Option Nat → Nat
  | 0, _ => 0
  | _ + 1, none => 0
  | fuel + 1, some id =>
    match h.lookup id with
    | none => 0
    | some nd => 1 + lenAux h fuel nd.next

/-- Embedding of `LLNode.Len` from a head pointer. -/
def llLen {T : Type} (h : LLHeap T) (head : Option Nat) : Nat :=
  lenAux h h.size head

/-- The traversal of `LLNode.Range`, fuel-bounded: `Range` sizes its
result with `Len` and then copies exactly the values met while following
`Next`, which on an acyclic heap is this list. -/
def rangeAux {T : Type} (h : LLHeap T) : Nat → Option Nat → List T
  | 0, _ => []
  | _ + 1, none => []
  | fuel + 1, some id =>
    match h.lookup id with
    | none => []
    | some nd => nd.value :: rangeAux h fuel nd.next

/-- Embedding of `LLNode.Range` from a head pointer. -/
def llRange {T : Type} (h : LLHeap T) (head : Option Nat) : List T :=
  rangeAux h h.size head

/-- The `for curr.Next != nil` walk of `AddToTail`, fuel-bounded: the id of
the last node of the chain starting at `id`. -/
def lastIdAux {T : Type} (h : LLHeap T) : Nat → Nat → Nat
  | 0, id => id
  | fuel + 1, id =>
    match h.lookup id with
    | none => id
    | some nd =>
      match nd.next with
      | none => id
      | some nid => lastIdAux h fuel nid

/-- Embedding of `LLNode.AddToTail`: walks to the tail node `curr`,
allocates `&LLNode[T]{Value: val, Prev: curr}` and sets `curr.Next` to the
new node.  Returns the new heap and the id of the new node. -/
def addToTail {T : Type} (h : LLHeap T) (headId : Nat) (val : T) :
    LLHeap T × Nat :=
  let last := lastIdAux h h.size headId
  let p := h.alloc ⟨val, some last, none⟩
  match p.2.lookup last with
  | none => (p.2, p.1)
  | some nd => (p.2.setNode last ⟨nd.value, nd.prev, some p.1⟩, p.1)

/-- Embedding of `LLNode.AddToHead`: allocates
`&LLNode[T]{Value: val, Next: head}` and sets `head.Prev` to the new node. -/
def addToHead {T : Type} (h : LLHeap T) (headId : Nat) (val : T) :
    LLHeap T × Nat :=
  let p := h.alloc ⟨val, none, some headId⟩
  match p.2.lookup headId with
  | none => (p.2, p.1)
  | some nd => (p.2.setNode headId ⟨nd.value, some p.1, nd.next⟩, p.1)

/-- Embedding of `LLNode.RemoveSelf`: when `n.Prev` is non-nil, set
`n.Prev.Next = n.Next`; then, when `n.Next` is non-nil, set
`n.Next.Prev = n.Prev`. -/
def removeSelf {T : Type} (h : LLHeap T) (id : Nat) : LLHeap T :=
  match h.lookup id with
  | none => h
  | some nd =>
    let h1 := match nd.prev with
      | none => h
      | some p =>
        match h.lookup p with
        | none => h
        | some pnd => h.setNode p ⟨pnd.value, pnd.prev, nd.next⟩
    match nd.next with
    | none => h1
    | some nx =>
      match h1.lookup nx with
      | none => h1
      | some xnd => h1.setNode nx ⟨xnd.value, nd.prev, xnd.next⟩

/-- The failure values of `Dequeue`/`Pop`: `ErrQueueEmpty` and
`ErrStackEmpty` from queue.go. -/
inductive CollErr where
  | queueEmpty
  | stackEmpty
deriving DecidableEq, Repr

/-- Embedding of `Queue[T]`: the heap plus the `Head` pointer. -/
structure Queue (T : Type) where
  heap : LLHeap T
  head : Option Nat
deriving DecidableEq, Repr

/-- A `Queue` with its zero value `nil` head and nothing allocated. -/
def Queue.empty {T : Type} : Queue T := ⟨⟨[]⟩, none⟩

/-- Embedding of `Queue.Enqueue`: a nil head is replaced by a fresh node,
otherwise the value is appended with `AddToTail`. -/
def Queue.Enqueue {T : Type} (q : Queue T) (val : T) : Queue T :=
  match q.head with
  | none =>
    let p := q.heap.alloc ⟨val, none, none⟩
    ⟨p.2, some p.1⟩
  | some headId =>
    let p := addToTail q.heap headId val
    ⟨p.1, q.head⟩

/-- Embedding of `Queue.Dequeue`: on a nil head, return the zero value of
`T` (modelled by `default`) and `ErrQueueEmpty`; otherwise advance the
head to `result.Next` and return the old head's value.  The inner `none`
branch is dead code: a non-nil head always dereferences in Go, and under
the reachability invariant the head id is always allocated. -/
def Queue.Dequeue {T : Type} [Inhabited T] (q : Queue T) :
    T × Option CollErr × Queue T :=
  match q.head with
  | none => (default, some CollErr.queueEmpty, q)
  | some id =>
    match q.heap.lookup id with
    | none => (default, some CollErr.queueEmpty, q)
    | some nd => (nd.value, none, ⟨q.heap, nd.next⟩)

/-- Embedding of `Stack[T]`: the heap plus the `Head` pointer. -/
structure Stack (T : Type) where
  heap : LLHeap T
  head : Option Nat
deriving DecidableEq, Repr

/-- A `Stack` with its zero value `nil` head and nothing allocated. -/
def Stack.empty {T : Type} : Stack T := ⟨⟨[]⟩, none⟩

/-- Embedding of `Stack.Push`: a nil head is replaced by a fresh node,
otherwise the value is prepended with `AddToHead` and the head moves to
the new node. -/
def Stack.Push {T : Type} (s : Stack T) (val : T) : Stack T :=
  match s.head with
  | none =>
    let p := s.heap.alloc ⟨val, none, none⟩
    ⟨p.2, some p.1⟩
  | some headId =>
    let p := addToHead s.heap headId val
    ⟨p.1, some p.2⟩

/-- Embedding of `Stack.Pop`: on a nil head, return the zero value of `T`
and `ErrStackEmpty`; otherwise move the head to `oldHead.Next`, run
`oldHead.RemoveSelf()` and return `oldHead.Value`.  As in `Dequeue`, the
inner `none` branch is dead code under the reachability invariant. -/
def Stack.Pop {T : Type} [Inhabited T] (s : Stack T) :
    T × Option CollErr × Stack T :=
  match s.head with
  | none => (default, some CollErr.stackEmpty, s)
  | some id =>
    match s.heap.lookup id with
    | none => (default, some CollErr.stackEmpty, s)
    | some nd => (nd.value, none, ⟨removeSelf s.heap id, nd.next⟩)

/-- Enqueue a sequence of values in order. -/
def enqueueAll {T : Type} (q : Queue T) (vs : List T) : Queue T :=
  vs.foldl Queue.Enqueue q

/-- Push a sequence of values in order. -/
def pushAll {T : Type} (s : Stack T) (vs : List T) : Stack T :=
  vs.foldl Stack.Push s

/-- The results of `n` successive `Dequeue` calls. -/
def drainQueue {T : Type} [Inhabited T] : Nat → Queue T →
    List (T × Option CollErr)
  | 0, _ => []
  | n + 1, q =>
    let r := q.Dequeue
    (r.1, r.2.1) :: drainQueue n r.2.2

/-- The results of `n` successive `Pop` calls. -/
def drainStack {T : Type} [Inhabited T] : Nat → Stack T →
    List (T × Option CollErr)
  | 0, _ => []
  | n + 1, s =>
    let r := s.Pop
    (r.1, r.2.1) :: drainStack n r.2.2

/-- The two-element queue reached by enqueuing `1` then `2` on the empty
queue: node 0 holds `1` (head), node 1 holds `2` with its `Prev` pointing
back at node 0. -/
def twoElemQueue : Queue Int :=
  ⟨⟨[⟨1, none, some 1⟩, ⟨2, some 0, none⟩]⟩, some 0⟩

/-! ### Reachability invariants for the linked structures -/

/-- `chainB h hd ids` holds when `ids` is exactly the sequence of node ids
reached from the pointer `hd` by following `Next` until `nil`. -/
def chainB {T : Type} (h : LLHeap T) : Option Nat → List Nat → Bool
  | none, [] => true
  | none, _ :: _ => false
  | some _, [] => false
  | some hid, id :: rest =>
    hid == id &&
      match h.lookup id with
      | none => false
      | some nd => chainB h nd.next rest

/-- Every non-head chain node's `Prev` points at its chain predecessor
(the shape `AddToTail` builds, preserved — stale head link included — by
`Dequeue`). -/
def prevLinkedB {T : Type} (h : LLHeap T) : List Nat → Bool
  | [] => true
  | [_] => true
  | a :: b :: rest =>
    (match h.lookup b with
     | none => false
     | some nd => nd.prev == some a) &&
      prevLinkedB h (b :: rest)

/-- The head node's `Prev` is nil (the shape `Push`/`Pop` maintain). -/
def headPrevNoneB {T : Type} (h : LLHeap T) : List Nat → Bool
  | [] => true
  | id :: _ =>
    match h.lookup id with
    | none => false
    | some nd => nd.prev == none

/-- The values stored along a list of node ids. -/
def vals {T : Type} (h : LLHeap T) (ids : List Nat) : List T :=
  ids.filterMap fun id => (h.lookup id).map LLNode.value

/-- Reachable queue states: the head chain is `ids`, ids are distinct, and
back-links point at chain predecessors. -/
abbrev QueueWF {T : Type} (q : Queue T) (ids : List Nat) : Prop :=
  chainB q.heap q.head ids = true ∧ ids.Nodup ∧
    prevLinkedB q.heap ids = true

/-- Reachable stack states: the head chain is `ids`, ids are distinct, and
the head node's back-link is nil. -/
abbrev StackWF {T : Type} (s : Stack T) (ids : List Nat) : Prop :=
  chainB s.heap s.head ids = true ∧ ids.Nodup ∧
    headPrevNoneB s.heap ids = true

/-! ### Slice and set theorems -/

/-- `Set.Equals` unfolded: true exactly when the cardinalities agree and
every key of `s` is a key of `s2` (the one-sided check the code performs). -/
theorem equals_eq_true_iff {T : Type} [DecidableEq T] (s s2 : Set T) :
    s.Equals s2 = true ↔
      (s.card = s2.card ∧ ∀ x ∈ (s : List T), x ∈ (s2 : List T)) := by
  by_cases hc : s.card = s2.card
  · simp [Set.Equals, Set.Contains, hc, List.all_eq_true]
  · simp [Set.Equals, hc]

/-- C1: the claim fails on the code.  For `S = [1,1,2]`,
`NewSetSaveDuplicates` allocates a 2-slot duplicate buffer, fills one slot,
and the trim guard `dupesIdx < len(dupes)-1` (1 < 1) is false, so the
buffer is returned untrimmed as `[1, 0]`, carrying a stale zero value:
`len(set) + len(duplicates) = 2 + 2 = 4 ≠ 3 = len(S)`, and the duplicates
list holds more than the repeat occurrences. -/
theorem newSetSaveDuplicates_untrimmed_on_1_1_2 :
    NewSetSaveDuplicates ([1, 1, 2] : List Int) = ([1, 2], some [1, 0]) ∧
    (NewSetSaveDuplicates ([1, 1, 2] : List Int)).1.card +
      ((NewSetSaveDuplicates ([1, 1, 2] : List Int)).2.getD []).length ≠
        ([1, 1, 2] : List Int).length := by
  refine ⟨rfl, ?_⟩
  decide

/-- C2: the claim fails on the code.  For `sl = [1,2]` with the is-even
predicate, `SliceFilter` keeps one element, and the trim guard
`resultIdx < len(result)-1` (1 < 1) is false, so the zero-filled buffer is
returned untrimmed as `[2, 0]` instead of `[2]`: the result contains an
element (`0`... the stale zero) for which the predicate never held on the
input. -/
theorem sliceFilter_untrimmed_on_1_2 :
    SliceFilter ([1, 2] : List Int) (fun x => x % 2 == 0) = [2, 0] ∧
    SliceFilter ([1, 2] : List Int) (fun x => x % 2 == 0) ≠ [2] := by
  exact ⟨rfl, by decide⟩

/-- C3: the claim fails on the code.  `[1,2]` is a subsequence of
`[1,5,2]` (its elements appear in the same relative order), yet
`SliceSubset` returns `false` there: the scan resets `subIdx` to 0 on the
mismatch at `5` and never recovers, so the helper is not a subsequence
test. -/
theorem sliceSubset_rejects_subsequence_1_2 :
    SliceSubset ([1, 5, 2] : List Int) [1, 2] = some false ∧
    List.Sublist ([1, 2] : List Int) [1, 5, 2] := by
  refine ⟨rfl, ?_⟩
  decide

/-- C4: the claim fails on the code.  With an empty `sub` and the nonempty
haystack `[1]`, both `SliceSubset` and `SliceSubsetStrict` reach the
helper scan, whose very first iteration reads `sub[0]` out of range — a Go
runtime panic, modelled by `none` — instead of returning a well-defined
result. -/
theorem sliceSubset_empty_sub_panics :
    SliceSubset ([1] : List Int) [] = none ∧
    SliceSubsetStrict ([1] : List Int) [] = none :=
  ⟨rfl, rfl⟩

/-- C7: for sets (key lists with the map's key-uniqueness invariant),
`Equals` is true exactly when the cardinalities agree and the sets have
the same members; it is reflexive and symmetric, and cardinality
mismatches always yield `false`. -/
theorem set_equals_characterization {T : Type} [DecidableEq T]
    (s s2 : Set T) (h1 : (s : List T).Nodup) (h2 : (s2 : List T).Nodup) :
    (s.Equals s2 = true ↔
      (s.card = s2.card ∧ ∀ x, s.Mem x ↔ s2.Mem x)) ∧
    s.Equals s = true ∧
    s.Equals s2 = s2.Equals s := by
  have key : ∀ (a b : Set T), (a : List T).Nodup →
      (a.Equals b = true ↔ (a.card = b.card ∧ ∀ x, a.Mem x ↔ b.Mem x)) := by
    intro a b ha
    rw [equals_eq_true_iff]
    constructor
    · rintro ⟨hc, hsub⟩
      refine ⟨hc, fun x => ?_⟩
      have hperm : List.Perm (a : List T) (b : List T) :=
        (ha.subperm fun x hx => hsub x hx).perm_of_length_le
          (le_of_eq hc.symm)
      exact hperm.mem_iff
    · rintro ⟨hc, hmem⟩
      exact ⟨hc, fun x hx => (hmem x).mp hx⟩
  refine ⟨key s s2 h1, ?_, ?_⟩
  · rw [equals_eq_true_iff]
    exact ⟨rfl, fun x hx => hx⟩
  · have hiff : s.Equals s2 = true ↔ s2.Equals s = true := by
      rw [key s s2 h1, key s2 s h2]
      constructor
      · rintro ⟨hc, hm⟩
        exact ⟨hc.symm, fun x => (hm x).symm⟩
      · rintro ⟨hc, hm⟩
        exact ⟨hc.symm, fun x => (hm x).symm⟩
    cases hA : s.Equals s2 <;> cases hB : s2.Equals s <;> simp_all

/-- Witness for C7 at the concrete sets `{1,2}` and `{2,1}`. -/
theorem set_equals_characterization_witness :
    (([1, 2] : List Int).Nodup ∧ ([2, 1] : List Int).Nodup) ∧
    ((Set.Equals ([1, 2] : Set Int) [2, 1] = true ↔
      (Set.card ([1, 2] : Set Int) = Set.card ([2, 1] : Set Int) ∧
        ∀ x, Set.Mem ([1, 2] : Set Int) x ↔ Set.Mem ([2, 1] : Set Int) x)) ∧
    Set.Equals ([1, 2] : Set Int) [1, 2] = true ∧
    Set.Equals ([1, 2] : Set Int) [2, 1] =
      Set.Equals ([2, 1] : Set Int) [1, 2]) :=
  ⟨⟨by decide, by decide⟩,
    set_equals_characterization [1, 2] [2, 1] (by decide) (by decide)⟩

/-- C8: `NewSet` and `NewSetFromSlice` run the identical `Add` loop, so on
every input sequence they build sets with the same membership, and the two
results are equal under `Set.Equals`. -/
theorem newSet_eq_newSetFromSlice {T : Type} [DecidableEq T]
    (sl : List T) :
    (∀ x, (NewSet sl).Mem x ↔ (NewSetFromSlice sl).Mem x) ∧
    (NewSet sl).Equals (NewSetFromSlice sl) = true := by
  have hdef : NewSet sl = NewSetFromSlice sl := rfl
  refine ⟨fun x => by rw [hdef], ?_⟩
  rw [hdef, equals_eq_true_iff]
  exact ⟨rfl, fun x hx => hx⟩

/-! ### Heap lemmas -/

/-- Allocation leaves existing nodes readable unchanged. -/
theorem LLHeap.lookup_alloc_lt {T : Type} (h : LLHeap T) (nd : LLNode T)
    {id : Nat} (hid : id < h.size) :
    (h.alloc nd).2.lookup id = h.lookup id := by
  simp only [LLHeap.alloc, LLHeap.lookup]
  exact List.getElem?_append_left hid

/-- Reading back a freshly allocated node. -/
theorem LLHeap.lookup_alloc_self {T : Type} (h : LLHeap T) (nd : LLNode T) :
    (h.alloc nd).2.lookup h.size = some nd := by
  simp only [LLHeap.alloc, LLHeap.lookup, LLHeap.size]
  exact List.getElem?_concat_length h.nodes nd

/-- Reading back an overwritten node. -/
theorem LLHeap.lookup_set_self {T : Type} (h : LLHeap T) (nd : LLNode T)
    {id : Nat} (hid : id < h.size) :
    (h.setNode id nd).lookup id = some nd := by
  simp only [LLHeap.setNode, LLHeap.lookup]
  exact List.getElem?_set_self hid

/-- Overwriting one node leaves the others readable unchanged. -/
theorem LLHeap.lookup_set_ne {T : Type} (h : LLHeap T) (nd : LLNode T)
    {id id2 : Nat} (hne : id ≠ id2) :
    (h.setNode id nd).lookup id2 = h.lookup id2 := by
  simp only [LLHeap.setNode, LLHeap.lookup]
  exact List.getElem?_set_ne hne

/-- Allocation grows the heap by one node. -/
theorem LLHeap.size_alloc {T : Type} (h : LLHeap T) (nd : LLNode T) :
    (h.alloc nd).2.size = h.size + 1 := by
  simp [LLHeap.alloc, LLHeap.size]

/-- Overwriting preserves the heap size. -/
theorem LLHeap.size_set {T : Type} (h : LLHeap T) (id : Nat)
    (nd : LLNode T) : (h.setNode id nd).size = h.size := by
  simp [LLHeap.setNode, LLHeap.size]

/-- `chainB` only reads the existence and the `Next` field of the chain's
nodes. -/
theorem chainB_congr {T : Type} {h h2 : LLHeap T} (ids : List Nat)
    (hagree : ∀ id ∈ ids,
      (h2.lookup id).map LLNode.next = (h.lookup id).map LLNode.next) :
    ∀ hd, chainB h2 hd ids = chainB h hd ids := by
  induction ids with
  | nil => intro hd; cases hd <;> rfl
  | cons a rest ih =>
    intro hd
    cases hd with
    | none => rfl
    | some hid =>
      have hhead := hagree a (by simp)
      simp only [chainB]
      cases hh : h.lookup a with
      | none =>
        cases hh2 : h2.lookup a with
        | none => rfl
        | some nd2 => rw [hh, hh2] at hhead; simp at hhead
      | some nd =>
        cases hh2 : h2.lookup a with
        | none => rw [hh, hh2] at hhead; simp at hhead
        | some nd2 =>
          rw [hh, hh2] at hhead
          simp only [Option.map_some', Option.some_inj] at hhead
          show (hid == a && chainB h2 nd2.next rest) =
            (hid == a && chainB h nd.next rest)
          rw [hhead, ih (fun i hi => hagree i (by simp [hi]))]

/-- `vals` only reads the existence and the `value` field of the nodes. -/
theorem vals_congr {T : Type} {h h2 : LLHeap T} (ids : List Nat)
    (hagree : ∀ id ∈ ids,
      (h2.lookup id).map LLNode.value = (h.lookup id).map LLNode.value) :
    vals h2 ids = vals h ids := by
  induction ids with
  | nil => rfl
  | cons a rest ih =>
    have hhead := hagree a (by simp)
    have htail := ih fun i hi => hagree i (by simp [hi])
    simp only [vals, List.filterMap_cons] at htail ⊢
    cases hh : h.lookup a with
    | none =>
      cases hh2 : h2.lookup a with
      | none => exact htail
      | some nd2 => rw [hh, hh2] at hhead; simp at hhead
    | some nd =>
      cases hh2 : h2.lookup a with
      | none => rw [hh, hh2] at hhead; simp at hhead
      | some nd2 =>
        rw [hh, hh2] at hhead
        simp only [Option.map_some', Option.some_inj] at hhead
        simp only [Option.map_some']
        rw [hhead, htail]

/-- Every id on a chain dereferences. -/
theorem chain_lookup {T : Type} {h : LLHeap T} :
    ∀ {ids : List Nat} {hd : Option Nat}, chainB h hd ids = true →
      ∀ id ∈ ids, ∃ nd, h.lookup id = some nd := by
  intro ids
  induction ids with
  | nil => intro hd _ id hmem; cases hmem
  | cons a rest ih =>
    intro hd hchain id hmem
    cases hd with
    | none => simp [chainB] at hchain
    | some hid =>
      simp only [chainB, Bool.and_eq_true, beq_iff_eq] at hchain
      obtain ⟨-, hrest⟩ := hchain
      cases hh : h.lookup a with
      | none => rw [hh] at hrest; simp at hrest
      | some nd =>
        rw [hh] at hrest
        rcases List.mem_cons.mp hmem with rfl | hmem2
        · exact ⟨nd, hh⟩
        · exact ih hrest id hmem2

/-- Every id on a chain is an allocated address. -/
theorem chain_bounds {T : Type} {h : LLHeap T} {ids : List Nat}
    {hd : Option Nat} (hchain : chainB h hd ids = true) :
    ∀ id ∈ ids, id < h.size := by
  intro id hmem
  obtain ⟨nd, hnd⟩ := chain_lookup hchain id hmem
  simp only [LLHeap.lookup] at hnd
  obtain ⟨hlt, -⟩ := List.getElem?_eq_some_iff.mp hnd
  exact hlt

/-- Distinct naturals all below `n` number at most `n`. -/
theorem nodup_lt_length {ids : List Nat} {n : Nat} (hnd : ids.Nodup)
    (hb : ∀ id ∈ ids, id < n) : ids.length ≤ n := by
  have h1 : ids.toFinset ⊆ Finset.range n := by
    intro x hx
    simp only [List.mem_toFinset] at hx
    simpa using hb x hx
  have h2 := Finset.card_le_card h1
  rwa [List.toFinset_card_of_nodup hnd, Finset.card_range] at h2

/-- `vals` over a cons whose head dereferences. -/
theorem vals_cons_some {T : Type} (h : LLHeap T) {id : Nat} {nd : LLNode T}
    (hh : h.lookup id = some nd) (rest : List Nat) :
    vals h (id :: rest) = nd.value :: vals h rest := by
  simp [vals, List.filterMap_cons, hh]

/-- On a chain, the fuelled traversal returns exactly the chain values. -/
theorem rangeAux_chain {T : Type} {h : LLHeap T} :
    ∀ {ids : List Nat} {hd : Option Nat} {fuel : Nat},
      chainB h hd ids = true → ids.length ≤ fuel →
      rangeAux h fuel hd = vals h ids := by
  intro ids
  induction ids with
  | nil =>
    intro hd fuel hchain _
    cases hd with
    | none => cases fuel <;> rfl
    | some hid => simp [chainB] at hchain
  | cons a rest ih =>
    intro hd fuel hchain hfuel
    cases hd with
    | none => simp [chainB] at hchain
    | some hid =>
      simp only [chainB, Bool.and_eq_true, beq_iff_eq] at hchain
      obtain ⟨rfl, hrest⟩ := hchain
      cases hh : h.lookup hid with
      | none => rw [hh] at hrest; simp at hrest
      | some nd =>
        rw [hh] at hrest
        have hrest2 : chainB h nd.next rest = true := hrest
        cases fuel with
        | zero => exact absurd hfuel (by simp)
        | succ f =>
          simp only [rangeAux]
          rw [hh]
          show nd.value :: rangeAux h f nd.next = vals h (hid :: rest)
          rw [ih hrest2 (Nat.le_of_succ_le_succ hfuel),
            vals_cons_some h hh rest]

/-- On a chain, the fuelled length traversal counts the chain. -/
theorem lenAux_chain {T : Type} {h : LLHeap T} :
    ∀ {ids : List Nat} {hd : Option Nat} {fuel : Nat},
      chainB h hd ids = true → ids.length ≤ fuel →
      lenAux h fuel hd = ids.length := by
  intro ids
  induction ids with
  | nil =>
    intro hd fuel hchain _
    cases hd with
    | none => cases fuel <;> rfl
    | some hid => simp [chainB] at hchain
  | cons a rest ih =>
    intro hd fuel hchain hfuel
    cases hd with
    | none => simp [chainB] at hchain
    | some hid =>
      simp only [chainB, Bool.and_eq_true, beq_iff_eq] at hchain
      obtain ⟨rfl, hrest⟩ := hchain
      cases hh : h.lookup hid with
      | none => rw [hh] at hrest; simp at hrest
      | some nd =>
        rw [hh] at hrest
        have hrest2 : chainB h nd.next rest = true := hrest
        cases fuel with
        | zero => exact absurd hfuel (by simp)
        | succ f =>
          simp only [lenAux]
          rw [hh]
          show 1 + lenAux h f nd.next = (hid :: rest).length
          rw [ih hrest2 (Nat.le_of_succ_le_succ hfuel)]
          simp [Nat.add_comm]

/-- A chain stores one value per id. -/
theorem vals_length_chain {T : Type} {h : LLHeap T} :
    ∀ {ids : List Nat} {hd : Option Nat}, chainB h hd ids = true →
      (vals h ids).length = ids.length := by
  intro ids
  induction ids with
  | nil => intro hd _; rfl
  | cons a rest ih =>
    intro hd hchain
    cases hd with
    | none => simp [chainB] at hchain
    | some hid =>
      simp only [chainB, Bool.and_eq_true, beq_iff_eq] at hchain
      obtain ⟨-, hrest⟩ := hchain
      cases hh : h.lookup a with
      | none => rw [hh] at hrest; simp at hrest
      | some nd =>
        rw [hh] at hrest
        rw [vals_cons_some h hh rest]
        simp [ih hrest]

/-- The `AddToTail` walk finds the last id of a chain, given enough fuel. -/
theorem lastIdAux_chain {T : Type} {h : LLHeap T} :
    ∀ {ids : List Nat} {hid : Nat} {fuel : Nat},
      chainB h (some hid) ids = true → ids.length - 1 ≤ fuel →
      ids.getLast? = some (lastIdAux h fuel hid) := by
  intro ids
  induction ids with
  | nil => intro hid fuel hchain _; simp [chainB] at hchain
  | cons a rest ih =>
    intro hid fuel hchain hfuel
    simp only [chainB, Bool.and_eq_true, beq_iff_eq] at hchain
    obtain ⟨rfl, hrest⟩ := hchain
    cases hh : h.lookup hid with
    | none => rw [hh] at hrest; simp at hrest
    | some nd =>
      rw [hh] at hrest
      cases rest with
      | nil =>
        have hrest2 : chainB h nd.next [] = true := hrest
        have hnone : nd.next = none := by
          cases hnx : nd.next with
          | none => rfl
          | some x => rw [hnx] at hrest2; simp [chainB] at hrest2
        cases fuel with
        | zero => rfl
        | succ f => simp [lastIdAux, hh, hnone]
      | cons b r2 =>
        have hrest2 : chainB h nd.next (b :: r2) = true := hrest
        have hnx : nd.next = some b := by
          cases hnx : nd.next with
          | none => rw [hnx] at hrest2; simp [chainB] at hrest2
          | some x =>
            rw [hnx] at hrest2
            simp only [chainB, Bool.and_eq_true, beq_iff_eq] at hrest2
            rw [hrest2.1]
        rw [hnx] at hrest2
        cases fuel with
        | zero => exact absurd hfuel (by simp)
        | succ f =>
          rw [List.getLast?_cons_cons]
          simp only [lastIdAux, hh, hnx]
          exact ih hrest2 (by simpa using hfuel)

/-- A chain for a nonempty id list starts at its first id. -/
theorem chain_head {T : Type} {h : LLHeap T} {hd : Option Nat} {a : Nat}
    {rest : List Nat} (hchain : chainB h hd (a :: rest) = true) :
    hd = some a := by
  cases hd with
  | none => simp [chainB] at hchain
  | some hid =>
    simp only [chainB, Bool.and_eq_true, beq_iff_eq] at hchain
    rw [hchain.1]

/-- A chain for the empty id list has a nil head. -/
theorem chain_nil {T : Type} {h : LLHeap T} {hd : Option Nat}
    (hchain : chainB h hd [] = true) : hd = none := by
  cases hd with
  | none => rfl
  | some hid => simp [chainB] at hchain

/-- Destructing a chain at its head node. -/
theorem chain_cons {T : Type} {h : LLHeap T} {hid a : Nat} {rest : List Nat}
    (hchain : chainB h (some hid) (a :: rest) = true) :
    hid = a ∧ ∃ nd, h.lookup a = some nd ∧ chainB h nd.next rest = true := by
  simp only [chainB, Bool.and_eq_true, beq_iff_eq] at hchain
  obtain ⟨h1, h2⟩ := hchain
  cases hh : h.lookup a with
  | none => rw [hh] at h2; simp at h2
  | some nd =>
    rw [hh] at h2
    exact ⟨h1, nd, rfl, h2⟩

/-- `prevLinkedB` restricts to the chain's tail. -/
theorem prevLinkedB_tail {T : Type} {h : LLHeap T} {a : Nat} {l : List Nat}
    (hp : prevLinkedB h (a :: l) = true) : prevLinkedB h l = true := by
  cases l with
  | nil => rfl
  | cons b r =>
    simp only [prevLinkedB, Bool.and_eq_true] at hp
    exact hp.2

/-- Appending a fresh tail node to a chain: the updated heap `h2` differs
from `h` only at the old last node (whose `Next` now points at `newId`)
and at the fresh node `newId` (whose `Next` is nil), so the chain extends
by `newId`. -/
theorem chainB_snoc_aux {T : Type} {h h2 : LLHeap T} {newId : Nat} :
    ∀ {ids : List Nat} {hid last : Nat},
      chainB h (some hid) ids = true →
      ids.getLast? = some last →
      ids.Nodup →
      newId ∉ ids →
      (∀ id ∈ ids, id ≠ last → h2.lookup id = h.lookup id) →
      (∀ lnd, h.lookup last = some lnd →
        h2.lookup last = some ⟨lnd.value, lnd.prev, some newId⟩) →
      (∃ nnd, h2.lookup newId = some nnd ∧ nnd.next = none) →
      chainB h2 (some hid) (ids ++ [newId]) = true := by
  intro ids
  induction ids with
  | nil => intro hid last hchain hlast _ _ _ _ _; simp [chainB] at hchain
  | cons a rest ih =>
    intro hid last hchain hlast hnodup hnew hother hlastupd hnewnode
    obtain ⟨rfl, nd, hh, hrest⟩ := chain_cons hchain
    cases rest with
    | nil =>
      have hlasteq : last = hid := by
        simp only [List.getLast?_singleton, Option.some_inj] at hlast
        exact hlast.symm
      subst hlasteq
      have hnone : nd.next = none := by
        cases hnx : nd.next with
        | none => rfl
        | some x => rw [hnx] at hrest; simp [chainB] at hrest
      obtain ⟨nnd, hnnd, hnndnext⟩ := hnewnode
      have hupd := hlastupd nd hh
      simp [chainB, hupd, hnnd, hnndnext]
    | cons b r2 =>
      have hnx : nd.next = some b := chain_head hrest
      rw [hnx] at hrest
      have hlast2 : (b :: r2).getLast? = some last := by
        rw [← List.getLast?_cons_cons (a := hid)]
        exact hlast
      have hlastmem : last ∈ b :: r2 := List.mem_of_getLast?_eq_some hlast2
      have hidne : hid ≠ last := by
        intro hcontra
        have := (List.nodup_cons.mp hnodup).1
        rw [hcontra] at this
        exact this hlastmem
      have hlook : h2.lookup hid = h.lookup hid := hother hid (by simp) hidne
      simp only [List.cons_append, chainB, Bool.and_eq_true, beq_self_eq_true,
        true_and, hlook, hh]
      show chainB h2 nd.next ((b :: r2) ++ [newId]) = true
      rw [hnx]
      exact ih hrest hlast2 (List.nodup_cons.mp hnodup).2
        (fun hmem => hnew (by simp [hmem]))
        (fun i hi hne => hother i (by simp [hi]) hne) hlastupd hnewnode

/-- Appending a fresh tail node preserves the back-link invariant: the
updated heap keeps every chain node's `Prev`, and the fresh node's `Prev`
points at the old last node. -/
theorem prevLinkedB_snoc_aux {T : Type} {h h2 : LLHeap T} {newId : Nat} :
    ∀ {ids : List Nat} {last : Nat},
      prevLinkedB h ids = true →
      ids.getLast? = some last →
      (∀ id ∈ ids, (h2.lookup id).map LLNode.prev =
        (h.lookup id).map LLNode.prev) →
      (∃ nnd, h2.lookup newId = some nnd ∧ nnd.prev = some last) →
      prevLinkedB h2 (ids ++ [newId]) = true := by
  intro ids
  induction ids with
  | nil => intro last _ hlast _ _; simp at hlast
  | cons a rest ih =>
    intro last hprev hlast hagree hnew
    cases rest with
    | nil =>
      have hlasteq : last = a := by
        simp only [List.getLast?_singleton, Option.some_inj] at hlast
        exact hlast.symm
      subst hlasteq
      obtain ⟨nnd, hnnd, hnndprev⟩ := hnew
      simp [prevLinkedB, hnnd, hnndprev]
    | cons b r2 =>
      simp only [prevLinkedB, Bool.and_eq_true] at hprev
      obtain ⟨hb, hrest⟩ := hprev
      have hbagree := hagree b (by simp)
      simp only [List.cons_append, prevLinkedB, Bool.and_eq_true]
      constructor
      · cases hh : h.lookup b with
        | none => rw [hh] at hb; simp at hb
        | some nd =>
          rw [hh] at hb
          cases hh2 : h2.lookup b with
          | none => rw [hh, hh2] at hbagree; simp at hbagree
          | some nd2 =>
            rw [hh, hh2] at hbagree
            simp only [Option.map_some', Option.some_inj] at hbagree
            show (nd2.prev == some a) = true
            rw [hbagree]
            exact hb
      · have hlast2 : (b :: r2).getLast? = some last := by
          rw [← List.getLast?_cons_cons (a := a)]
          exact hlast
        exact ih hrest hlast2 (fun i hi => hagree i (by simp [hi])) hnew

/-- `Enqueue` on a reachable queue appends the value to the chain (the new
node's id is the allocation address) and preserves reachability. -/
theorem Enqueue_wf {T : Type} (q : Queue T) (ids : List Nat) (v : T)
    (hwf : QueueWF q ids) :
    QueueWF (q.Enqueue v) (ids ++ [q.heap.size]) ∧
      vals (q.Enqueue v).heap (ids ++ [q.heap.size]) =
        vals q.heap ids ++ [v] := by
  obtain ⟨hchain, hnodup, hprev⟩ := hwf
  cases ids with
  | nil =>
    have hhead : q.head = none := chain_nil hchain
    have henq : q.Enqueue v =
        ⟨(q.heap.alloc ⟨v, none, none⟩).2, some q.heap.size⟩ := by
      simp [Queue.Enqueue, hhead, LLHeap.alloc, LLHeap.size]
    rw [henq]
    have hself := q.heap.lookup_alloc_self ⟨v, none, none⟩
    refine ⟨⟨?_, by simp, by simp [prevLinkedB]⟩, ?_⟩
    · simp [chainB, hself]
    · simp [vals, hself]
  | cons a rest =>
    have hhead : q.head = some a := chain_head hchain
    rw [hhead] at hchain
    have hbounds := chain_bounds hchain
    have hfuel : (a :: rest).length - 1 ≤ q.heap.size := by
      have := nodup_lt_length hnodup hbounds
      omega
    have hlast := lastIdAux_chain hchain hfuel
    set last := lastIdAux q.heap q.heap.size a with hlastdef
    have hlastmem : last ∈ a :: rest := List.mem_of_getLast?_eq_some hlast
    have hlastlt : last < q.heap.size := hbounds last hlastmem
    obtain ⟨lnd, hlnd⟩ := chain_lookup hchain last hlastmem
    have halloclook :
        (q.heap.alloc ⟨v, some last, none⟩).2.lookup last = some lnd := by
      rw [q.heap.lookup_alloc_lt _ hlastlt]
      exact hlnd
    have henq : q.Enqueue v =
        ⟨((q.heap.alloc ⟨v, some last, none⟩).2).setNode last
            ⟨lnd.value, lnd.prev, some q.heap.size⟩, some a⟩ := by
      simp only [Queue.Enqueue, hhead, addToTail, ← hlastdef, halloclook]
      rfl
    set h2 : LLHeap T :=
      ((q.heap.alloc ⟨v, some last, none⟩).2).setNode last
        ⟨lnd.value, lnd.prev, some q.heap.size⟩ with h2def
    have hlastne : last ≠ q.heap.size := Nat.ne_of_lt hlastlt
    have hlook_other : ∀ id, id < q.heap.size → id ≠ last →
        h2.lookup id = q.heap.lookup id := by
      intro id hlt hne
      rw [h2def, LLHeap.lookup_set_ne _ _ (fun hx => hne hx.symm),
        q.heap.lookup_alloc_lt _ hlt]
    have hlook_last : h2.lookup last =
        some ⟨lnd.value, lnd.prev, some q.heap.size⟩ := by
      rw [h2def, LLHeap.lookup_set_self]
      rw [LLHeap.size_alloc]
      omega
    have hlook_new : h2.lookup q.heap.size = some ⟨v, some last, none⟩ := by
      rw [h2def, LLHeap.lookup_set_ne _ _ hlastne,
        LLHeap.lookup_alloc_self]
    have hnewnotin : q.heap.size ∉ a :: rest := by
      intro hmem
      exact absurd (hbounds _ hmem) (by omega)
    have hvalagree : ∀ id ∈ a :: rest,
        (h2.lookup id).map LLNode.value =
          (q.heap.lookup id).map LLNode.value := by
      intro id hmem
      by_cases hne : id = last
      · subst hne
        rw [hlook_last, hlnd]
        rfl
      · rw [hlook_other id (hbounds id hmem) hne]
    have hprevagree : ∀ id ∈ a :: rest,
        (h2.lookup id).map LLNode.prev =
          (q.heap.lookup id).map LLNode.prev := by
      intro id hmem
      by_cases hne : id = last
      · subst hne
        rw [hlook_last, hlnd]
        rfl
      · rw [hlook_other id (hbounds id hmem) hne]
    rw [henq]
    refine ⟨⟨?_, ?_, ?_⟩, ?_⟩
    · exact chainB_snoc_aux hchain hlast hnodup hnewnotin
        (fun id hmem hne => hlook_other id (hbounds id hmem) hne)
        (fun lnd2 hlnd2 => by
          rw [hlnd] at hlnd2
          cases hlnd2
          exact hlook_last)
        ⟨⟨v, some last, none⟩, hlook_new, rfl⟩
    · rw [List.nodup_append]
      exact ⟨hnodup, List.nodup_singleton _,
        fun x hx hx2 => by
          simp only [List.mem_singleton] at hx2
          subst hx2
          exact hnewnotin hx⟩
    · exact prevLinkedB_snoc_aux hprev hlast hprevagree
        ⟨⟨v, some last, none⟩, hlook_new, rfl⟩
    · show vals h2 ((a :: rest) ++ [q.heap.size]) = _
      rw [vals, List.filterMap_append, ← vals, ← vals,
        vals_congr _ hvalagree]
      simp [vals, hlook_new]

/-- `Dequeue` on a reachable nonempty queue returns the head value without
touching the heap, and the remaining state is reachable over the tail
chain. -/
theorem Dequeue_wf {T : Type} [Inhabited T] (q : Queue T) (id0 : Nat)
    (rest : List Nat) (hwf : QueueWF q (id0 :: rest)) :
    ∃ nd, q.heap.lookup id0 = some nd ∧
      q.Dequeue = (nd.value, none, ⟨q.heap, nd.next⟩) ∧
      QueueWF (⟨q.heap, nd.next⟩ : Queue T) rest ∧
      vals q.heap (id0 :: rest) = nd.value :: vals q.heap rest := by
  obtain ⟨hchain, hnodup, hprev⟩ := hwf
  have hhead : q.head = some id0 := chain_head hchain
  rw [hhead] at hchain
  obtain ⟨-, nd, hh, hrest⟩ := chain_cons hchain
  refine ⟨nd, hh, ?_, ⟨hrest, (List.nodup_cons.mp hnodup).2,
    prevLinkedB_tail hprev⟩, vals_cons_some _ hh rest⟩
  simp [Queue.Dequeue, hhead, hh]

/-- One drain step. -/
theorem drainQueue_succ {T : Type} [Inhabited T] (n : Nat) (q : Queue T) :
    drainQueue (n + 1) q =
      (q.Dequeue.1, q.Dequeue.2.1) :: drainQueue n q.Dequeue.2.2 := rfl

/-- Draining a reachable queue: one successful `Dequeue` per chain value,
in chain order, then `ErrQueueEmpty` with the zero value. -/
theorem drainQueue_spec {T : Type} [Inhabited T] :
    ∀ (ids : List Nat) (q : Queue T), QueueWF q ids →
      drainQueue (ids.length + 1) q =
        (vals q.heap ids).map (fun v => (v, (none : Option CollErr))) ++
          [(default, some CollErr.queueEmpty)] := by
  intro ids
  induction ids with
  | nil =>
    intro q hwf
    have hhead : q.head = none := chain_nil hwf.1
    simp [drainQueue, Queue.Dequeue, hhead, vals]
  | cons id0 rest ih =>
    intro q hwf
    obtain ⟨nd, hh, hdeq, hwf2, hvals⟩ := Dequeue_wf q id0 rest hwf
    show drainQueue (rest.length + 1 + 1) q = _
    rw [drainQueue_succ]
    simp only [hdeq]
    rw [ih _ hwf2, hvals]
    simp

/-- Enqueuing a sequence onto a reachable queue appends its values to the
abstract contents. -/
theorem enqueueAll_wf {T : Type} :
    ∀ (vs : List T) (q : Queue T) (ids : List Nat), QueueWF q ids →
      ∃ ids2, QueueWF (enqueueAll q vs) ids2 ∧
        vals (enqueueAll q vs).heap ids2 = vals q.heap ids ++ vs := by
  intro vs
  induction vs with
  | nil => intro q ids hwf; exact ⟨ids, hwf, by simp [enqueueAll]⟩
  | cons v rest ih =>
    intro q ids hwf
    obtain ⟨hwf2, hvals⟩ := Enqueue_wf q ids v hwf
    obtain ⟨ids2, hwf3, hvals2⟩ := ih (q.Enqueue v) _ hwf2
    refine ⟨ids2, ?_, ?_⟩
    · show QueueWF (enqueueAll (q.Enqueue v) rest) ids2
      exact hwf3
    · show vals (enqueueAll (q.Enqueue v) rest).heap ids2 = _
      rw [hvals2, hvals]
      simp

/-- C5: the queue is FIFO.  Enqueuing any sequence `vs` on the empty queue
and then dequeuing `len(vs) + 1` times yields exactly the values of `vs`
in order, each with no error, followed by one failing dequeue that returns
the zero value with `ErrQueueEmpty`. -/
theorem queue_fifo {T : Type} [Inhabited T] (vs : List T) :
    drainQueue (vs.length + 1) (enqueueAll Queue.empty vs) =
      vs.map (fun v => (v, (none : Option CollErr))) ++
        [(default, some CollErr.queueEmpty)] := by
  have hwf0 : QueueWF (Queue.empty : Queue T) [] :=
    ⟨rfl, List.nodup_nil, rfl⟩
  obtain ⟨ids2, hwf, hvals⟩ := enqueueAll_wf vs Queue.empty [] hwf0
  have hvals2 : vals (enqueueAll Queue.empty vs).heap ids2 = vs := by
    rw [hvals]; rfl
  have hlen : ids2.length = vs.length := by
    have hl := vals_length_chain hwf.1
    rw [hvals2] at hl
    exact hl.symm
  rw [← hlen, drainQueue_spec ids2 _ hwf, hvals2]

/-- `Push` on a reachable stack prepends the value to the chain (the new
node's id is the allocation address) and preserves reachability. -/
theorem Push_wf {T : Type} (s : Stack T) (ids : List Nat) (v : T)
    (hwf : StackWF s ids) :
    StackWF (s.Push v) (s.heap.size :: ids) ∧
      vals (s.Push v).heap (s.heap.size :: ids) = v :: vals s.heap ids := by
  obtain ⟨hchain, hnodup, hheadprev⟩ := hwf
  cases ids with
  | nil =>
    have hhead : s.head = none := chain_nil hchain
    have hpush : s.Push v =
        ⟨(s.heap.alloc ⟨v, none, none⟩).2, some s.heap.size⟩ := by
      simp [Stack.Push, hhead, LLHeap.alloc, LLHeap.size]
    rw [hpush]
    have hself := s.heap.lookup_alloc_self ⟨v, none, none⟩
    exact ⟨⟨by simp [chainB, hself], by simp,
      by simp [headPrevNoneB, hself]⟩, by simp [vals, hself]⟩
  | cons a rest =>
    have hhead : s.head = some a := chain_head hchain
    rw [hhead] at hchain
    have hbounds := chain_bounds hchain
    have halt : a < s.heap.size := hbounds a (by simp)
    obtain ⟨-, nd, hnd, -⟩ := chain_cons hchain
    have halloclook :
        (s.heap.alloc ⟨v, none, some a⟩).2.lookup a = some nd := by
      rw [s.heap.lookup_alloc_lt _ halt]
      exact hnd
    have hpush : s.Push v =
        ⟨((s.heap.alloc ⟨v, none, some a⟩).2).setNode a
            ⟨nd.value, some s.heap.size, nd.next⟩, some s.heap.size⟩ := by
      simp only [Stack.Push, hhead, addToHead, halloclook]
      rfl
    set h2 : LLHeap T :=
      ((s.heap.alloc ⟨v, none, some a⟩).2).setNode a
        ⟨nd.value, some s.heap.size, nd.next⟩ with h2def
    have hane : a ≠ s.heap.size := Nat.ne_of_lt halt
    have hlook_other : ∀ id, id ≠ a →
        h2.lookup id = (s.heap.alloc ⟨v, none, some a⟩).2.lookup id := by
      intro id hne
      rw [h2def, LLHeap.lookup_set_ne _ _ (fun hx => hne hx.symm)]
    have hlook_mid : ∀ id, id < s.heap.size → id ≠ a →
        h2.lookup id = s.heap.lookup id := by
      intro id hlt hne
      rw [hlook_other id hne, s.heap.lookup_alloc_lt _ hlt]
    have hlook_a : h2.lookup a =
        some ⟨nd.value, some s.heap.size, nd.next⟩ := by
      rw [h2def, LLHeap.lookup_set_self]
      rw [LLHeap.size_alloc]
      omega
    have hlook_new : h2.lookup s.heap.size = some ⟨v, none, some a⟩ := by
      rw [hlook_other _ (fun hx => hane hx.symm),
        LLHeap.lookup_alloc_self]
    have hnextagree : ∀ id ∈ a :: rest,
        (h2.lookup id).map LLNode.next =
          (s.heap.lookup id).map LLNode.next := by
      intro id hmem
      by_cases hne : id = a
      · subst hne
        rw [hlook_a, hnd]
        rfl
      · rw [hlook_mid id (hbounds id hmem) hne]
    have hvalagree : ∀ id ∈ a :: rest,
        (h2.lookup id).map LLNode.value =
          (s.heap.lookup id).map LLNode.value := by
      intro id hmem
      by_cases hne : id = a
      · subst hne
        rw [hlook_a, hnd]
        rfl
      · rw [hlook_mid id (hbounds id hmem) hne]
    have hnewnotin : s.heap.size ∉ a :: rest := fun hmem =>
      absurd (hbounds _ hmem) (by omega)
    rw [hpush]
    refine ⟨⟨?_, ?_, ?_⟩, ?_⟩
    · have hch2 : chainB h2 (some a) (a :: rest) = true := by
        rw [chainB_congr _ hnextagree]
        exact hchain
      simp only [chainB, Bool.and_eq_true, beq_self_eq_true, true_and]
      simp only [hlook_new]
      exact hch2
    · exact List.nodup_cons.mpr ⟨hnewnotin, hnodup⟩
    · simp [headPrevNoneB, hlook_new]
    · show vals h2 (s.heap.size :: a :: rest) = _
      rw [vals_cons_some h2 hlook_new, vals_congr _ hvalagree]

/-- `Pop` on a reachable nonempty stack returns the head value, unlinks it
with `RemoveSelf` (resetting the new head's `Prev` to nil), and the
remaining state is reachable over the tail chain with unchanged values. -/
theorem Pop_wf {T : Type} [Inhabited T] (s : Stack T) (id0 : Nat)
    (rest : List Nat) (hwf : StackWF s (id0 :: rest)) :
    ∃ nd, s.heap.lookup id0 = some nd ∧
      s.Pop = (nd.value, none, ⟨removeSelf s.heap id0, nd.next⟩) ∧
      StackWF (⟨removeSelf s.heap id0, nd.next⟩ : Stack T) rest ∧
      vals (removeSelf s.heap id0) rest = vals s.heap rest := by
  obtain ⟨hchain, hnodup, hheadprev⟩ := hwf
  have hhead : s.head = some id0 := chain_head hchain
  rw [hhead] at hchain
  obtain ⟨-, nd, hnd, hrest⟩ := chain_cons hchain
  have hprevnone : nd.prev = none := by
    simp only [headPrevNoneB, hnd, beq_iff_eq] at hheadprev
    exact hheadprev
  have hpop : s.Pop = (nd.value, none, ⟨removeSelf s.heap id0, nd.next⟩) := by
    simp [Stack.Pop, hhead, hnd]
  refine ⟨nd, hnd, hpop, ?_, ?_⟩
  · cases rest with
    | nil =>
      have hnone : nd.next = none := chain_nil hrest
      exact ⟨by rw [hnone]; rfl, List.nodup_nil, rfl⟩
    | cons id1 r2 =>
      have hnxt : nd.next = some id1 := chain_head hrest
      rw [hnxt] at hrest
      obtain ⟨-, nd1, hnd1, -⟩ := chain_cons hrest
      have hid1lt : id1 < s.heap.size :=
        chain_bounds hrest id1 (by simp)
      have hrs : removeSelf s.heap id0 =
          s.heap.setNode id1 ⟨nd1.value, nd.prev, nd1.next⟩ := by
        simp [removeSelf, hnd, hprevnone, hnxt, hnd1]
      have hlook_id1 : (removeSelf s.heap id0).lookup id1 =
          some ⟨nd1.value, none, nd1.next⟩ := by
        rw [hrs, hprevnone]
        exact s.heap.lookup_set_self _ hid1lt
      have hlook_other : ∀ id, id ≠ id1 →
          (removeSelf s.heap id0).lookup id = s.heap.lookup id := by
        intro id hne
        rw [hrs]
        exact s.heap.lookup_set_ne _ (fun hx => hne hx.symm)
      have hnextagree : ∀ id ∈ id1 :: r2,
          ((removeSelf s.heap id0).lookup id).map LLNode.next =
            (s.heap.lookup id).map LLNode.next := by
        intro id hmem
        by_cases hne : id = id1
        · subst hne
          rw [hlook_id1, hnd1]
          rfl
        · rw [hlook_other id hne]
      refine ⟨?_, (List.nodup_cons.mp hnodup).2, ?_⟩
      · rw [hnxt, chainB_congr _ hnextagree]
        exact hrest
      · simp [headPrevNoneB, hlook_id1]
  · cases rest with
    | nil => rfl
    | cons id1 r2 =>
      have hnxt : nd.next = some id1 := chain_head hrest
      rw [hnxt] at hrest
      obtain ⟨-, nd1, hnd1, -⟩ := chain_cons hrest
      have hid1lt : id1 < s.heap.size :=
        chain_bounds hrest id1 (by simp)
      have hrs : removeSelf s.heap id0 =
          s.heap.setNode id1 ⟨nd1.value, nd.prev, nd1.next⟩ := by
        simp [removeSelf, hnd, hprevnone, hnxt, hnd1]
      have hlook_id1 : (removeSelf s.heap id0).lookup id1 =
          some ⟨nd1.value, none, nd1.next⟩ := by
        rw [hrs, hprevnone]
        exact s.heap.lookup_set_self _ hid1lt
      have hlook_other : ∀ id, id ≠ id1 →
          (removeSelf s.heap id0).lookup id = s.heap.lookup id := by
        intro id hne
        rw [hrs]
        exact s.heap.lookup_set_ne _ (fun hx => hne hx.symm)
      apply vals_congr
      intro id hmem
      by_cases hne : id = id1
      · subst hne
        rw [hlook_id1, hnd1]
        rfl
      · rw [hlook_other id hne]

/-- One stack drain step. -/
theorem drainStack_succ {T : Type} [Inhabited T] (n : Nat) (s : Stack T) :
    drainStack (n + 1) s =
      (s.Pop.1, s.Pop.2.1) :: drainStack n s.Pop.2.2 := rfl

/-- Draining a reachable stack: one successful `Pop` per chain value, in
chain order, then `ErrStackEmpty` with the zero value. -/
theorem drainStack_spec {T : Type} [Inhabited T] :
    ∀ (ids : List Nat) (s : Stack T), StackWF s ids →
      drainStack (ids.length + 1) s =
        (vals s.heap ids).map (fun v => (v, (none : Option CollErr))) ++
          [(default, some CollErr.stackEmpty)] := by
  intro ids
  induction ids with
  | nil =>
    intro s hwf
    have hhead : s.head = none := chain_nil hwf.1
    simp [drainStack, Stack.Pop, hhead, vals]
  | cons id0 rest ih =>
    intro s hwf
    obtain ⟨nd, hnd, hpop, hwf2, hvals⟩ := Pop_wf s id0 rest hwf
    have hvals0 : vals s.heap (id0 :: rest) =
        nd.value :: vals s.heap rest := vals_cons_some _ hnd rest
    show drainStack (rest.length + 1 + 1) s = _
    rw [drainStack_succ]
    simp only [hpop]
    rw [ih _ hwf2, hvals, hvals0]
    simp

/-- Pushing a sequence onto a reachable stack prepends its reverse to the
abstract contents. -/
theorem pushAll_wf {T : Type} :
    ∀ (vs : List T) (s : Stack T) (ids : List Nat), StackWF s ids →
      ∃ ids2, StackWF (pushAll s vs) ids2 ∧
        vals (pushAll s vs).heap ids2 = vs.reverse ++ vals s.heap ids := by
  intro vs
  induction vs with
  | nil => intro s ids hwf; exact ⟨ids, hwf, by simp [pushAll]⟩
  | cons v rest ih =>
    intro s ids hwf
    obtain ⟨hwf2, hvals⟩ := Push_wf s ids v hwf
    obtain ⟨ids2, hwf3, hvals2⟩ := ih (s.Push v) _ hwf2
    refine ⟨ids2, ?_, ?_⟩
    · show StackWF (pushAll (s.Push v) rest) ids2
      exact hwf3
    · show vals (pushAll (s.Push v) rest).heap ids2 = _
      rw [hvals2, hvals]
      simp

/-- C6: the stack is LIFO and `Pop` fails exactly on the empty stack.
Pushing any sequence `vs` on the empty stack and then popping
`len(vs) + 1` times yields the values of `vs` in reverse order, each with
no error, followed by one failing pop that returns the zero value with
`ErrStackEmpty`. -/
theorem stack_lifo {T : Type} [Inhabited T] (vs : List T) :
    drainStack (vs.length + 1) (pushAll Stack.empty vs) =
      vs.reverse.map (fun v => (v, (none : Option CollErr))) ++
        [(default, some CollErr.stackEmpty)] := by
  have hwf0 : StackWF (Stack.empty : Stack T) [] :=
    ⟨rfl, List.nodup_nil, rfl⟩
  obtain ⟨ids2, hwf, hvals⟩ := pushAll_wf vs Stack.empty [] hwf0
  have hvals2 : vals (pushAll Stack.empty vs).heap ids2 = vs.reverse := by
    rw [hvals]
    simp [vals]
  have hlen : ids2.length = vs.length := by
    have hl := vals_length_chain hwf.1
    rw [hvals2] at hl
    simpa using hl.symm
  rw [← hlen, drainStack_spec ids2 _ hwf, hvals2]

/-- C9: `Dequeue` does not unlink the removed node.  On any reachable
queue holding at least two elements, `Dequeue` succeeds with the head
value, performs no node mutation at all (the heap is returned unchanged,
unlike `Pop`, which calls `RemoveSelf`), and the new head node's `Prev`
still references the removed former head; yet `Len` and `Range` follow
only `Next` links, so the observable contents are exactly the old
contents minus the head, and the remaining state is still reachable, so
later `Enqueue`/`Dequeue` calls are unaffected by the stale
back-reference. -/
theorem dequeue_stale_prev {T : Type} [Inhabited T] (q : Queue T)
    (id0 id1 : Nat) (rest : List Nat)
    (hwf : QueueWF q (id0 :: id1 :: rest)) :
    q.Dequeue.2.2.heap = q.heap ∧
    q.Dequeue.2.2.head = some id1 ∧
    (q.Dequeue.2.2.heap.lookup id1).map LLNode.prev = some (some id0) ∧
    q.Dequeue.2.1 = none ∧
    llRange q.Dequeue.2.2.heap q.Dequeue.2.2.head =
      (llRange q.heap q.head).tail ∧
    llLen q.Dequeue.2.2.heap q.Dequeue.2.2.head =
      llLen q.heap q.head - 1 ∧
    QueueWF q.Dequeue.2.2 (id1 :: rest) := by
  obtain ⟨nd, hnd, hdeq, hwf2, hvals⟩ := Dequeue_wf q id0 (id1 :: rest) hwf
  obtain ⟨hchain, hnodup, hprev⟩ := hwf
  have hhead : q.head = some id0 := chain_head hchain
  rw [hhead] at hchain
  obtain ⟨-, nd', hnd', hrest⟩ := chain_cons hchain
  have hndeq : nd' = nd := by
    rw [hnd] at hnd'
    exact (Option.some_inj.mp hnd').symm
  rw [hndeq] at hrest
  have hnxt : nd.next = some id1 := chain_head hrest
  have hprev1 : (q.heap.lookup id1).map LLNode.prev = some (some id0) := by
    simp only [prevLinkedB, Bool.and_eq_true] at hprev
    have hb := hprev.1
    cases hh : q.heap.lookup id1 with
    | none => rw [hh] at hb; simp at hb
    | some nd1 =>
      rw [hh] at hb
      simp only [beq_iff_eq] at hb
      rw [Option.map_some', hb]
  have hfuel : (id0 :: id1 :: rest).length ≤ q.heap.size :=
    nodup_lt_length hnodup (chain_bounds hchain)
  have hrange : llRange q.heap q.head = vals q.heap (id0 :: id1 :: rest) := by
    rw [hhead]
    exact rangeAux_chain hchain hfuel
  have hrange2 : llRange q.heap nd.next = vals q.heap (id1 :: rest) := by
    rw [hnxt] at hrest ⊢
    exact rangeAux_chain hrest (le_trans (by simp) hfuel)
  have hlen1 : llLen q.heap q.head = (id0 :: id1 :: rest).length := by
    rw [hhead]
    exact lenAux_chain hchain hfuel
  have hlen2 : llLen q.heap nd.next = (id1 :: rest).length := by
    rw [hnxt] at hrest ⊢
    exact lenAux_chain hrest (le_trans (by simp) hfuel)
  rw [hdeq]
  refine ⟨rfl, hnxt, ?_, rfl, ?_, ?_, ?_⟩
  · exact hprev1
  · show llRange q.heap nd.next = (llRange q.heap q.head).tail
    rw [hrange, hrange2, vals_cons_some _ hnd (id1 :: rest)]
    rfl
  · show llLen q.heap nd.next = llLen q.heap q.head - 1
    rw [hlen1, hlen2]
    rfl
  · show QueueWF (⟨q.heap, nd.next⟩ : Queue T) (id1 :: rest)
    exact hwf2

/-- Witness for C9 at the concrete two-element queue `1, 2`. -/
theorem dequeue_stale_prev_witness :
    QueueWF twoElemQueue [0, 1] ∧
    (twoElemQueue.Dequeue.2.2.heap = twoElemQueue.heap ∧
      twoElemQueue.Dequeue.2.2.head = some 1 ∧
      (twoElemQueue.Dequeue.2.2.heap.lookup 1).map LLNode.prev =
        some (some 0) ∧
      twoElemQueue.Dequeue.2.1 = none ∧
      llRange twoElemQueue.Dequeue.2.2.heap twoElemQueue.Dequeue.2.2.head =
        (llRange twoElemQueue.heap twoElemQueue.head).tail ∧
      llLen twoElemQueue.Dequeue.2.2.heap twoElemQueue.Dequeue.2.2.head =
        llLen twoElemQueue.heap twoElemQueue.head - 1 ∧
      QueueWF twoElemQueue.Dequeue.2.2 [1]) :=
  ⟨by decide, dequeue_stale_prev twoElemQueue 0 1 [] (by decide)⟩

/-- C10: on an empty queue or stack (nil head and hence no elements),
`Dequeue` and `Pop` return the zero value of `T` (modelled by `default`)
together with `ErrQueueEmpty` resp. `ErrStackEmpty`, and return the
structure itself unchanged, so a failed call has no effect on later
operations. -/
theorem empty_dequeue_pop {T : Type} [Inhabited T] (q : Queue T)
    (s : Stack T) (hq : q.head = none) (hs : s.head = none) :
    q.Dequeue = (default, some CollErr.queueEmpty, q) ∧
    s.Pop = (default, some CollErr.stackEmpty, s) := by
  constructor
  · simp [Queue.Dequeue, hq]
  · simp [Stack.Pop, hs]

/-- Witness for C10 at the empty queue and stack over `Int`. -/
theorem empty_dequeue_pop_witness :
    ((Queue.empty : Queue Int).head = none ∧
      (Stack.empty : Stack Int).head = none) ∧
    ((Queue.empty : Queue Int).Dequeue =
        (default, some CollErr.queueEmpty, Queue.empty) ∧
      (Stack.empty : Stack Int).Pop =
        (default, some CollErr.stackEmpty, Stack.empty)) :=
  ⟨⟨rfl, rfl⟩, empty_dequeue_pop Queue.empty Stack.empty rfl rfl⟩

end Collections
